import Mathlib

/-!
Shallow embedding of `cmd/admin-rpc-client.go` (minio cluster administration
dispatcher and quorum aggregator), together with theorems settling the
specification claims about it.

Modelling conventions:
* machine durations (`time.Duration`, int64 nanoseconds) are modelled as `Int`
  (no claim depends on 64-bit overflow);
* instants (`time.Time`) are modelled as `Int`, with the Go zero time at `0`
  (`IsZero` becomes `= 0`);
* configuration snapshots (`serverConfigV13`) are an opaque type `α` with
  decidable structural equality (`reflect.DeepEqual`) and a designated zero
  value (`Inhabited.default`, the Go zero struct);
* per-peer errors are an opaque type `ε` with decidable equality;
* the concurrent fan-out/gather phase of each aggregator is modelled by its
  result: the aggregators take the per-peer result/error arrays as input,
  indexed like the peer slice.
-/

/-- DecidableEq for `Except`, needed to `decide` concrete runs of the
embedded aggregators. -/
instance {ε α : Type} [DecidableEq ε] [DecidableEq α] : DecidableEq (Except ε α) := fun a b =>
  match a, b with
  | .ok x, .ok y =>
    if h : x = y then .isTrue (by rw [h]) else .isFalse (by simp [h])
  | .error x, .error y =>
    if h : x = y then .isTrue (by rw [h]) else .isFalse (by simp [h])
  | .ok _, .error _ => .isFalse (by simp)
  | .error _, .ok _ => .isFalse (by simp)

/-- Errors produced by the aggregators themselves (as opposed to errors
reported by an individual peer): `errXLWriteQuorum` (the spec's
InsufficientWriteQuorum), `InsufficientReadQuorum{}`, and
`errServerNotInitialized` (the spec's NotInitialized). -/
inductive AdminErr : Type where
  | errXLWriteQuorum : AdminErr
  | insufficientReadQuorum : AdminErr
  | errServerNotInitialized : AdminErr
deriving DecidableEq

/-- Write quorum used by `getValidServerConfig`: `len(serverConfigs)/2 + 1`. -/
def writeQuorum (n : Nat) : Nat := n / 2 + 1

/-- Read quorum used by `listPeerLocksInfo`: `len(peers)/2 + 1`. -/
def lockReadQuorum (n : Nat) : Nat := n / 2 + 1

/-- Read quorum used by `getPeerUptimes`: `len(uptimes)/2`. -/
def uptimeReadQuorum (n : Nat) : Nat := n / 2

section ConfigReconciler

variable {α : Type} [DecidableEq α] [Inhabited α] {ε : Type}

/-- One iteration of the outer counting loop of `getValidServerConfig` for
index `i`: skip peers whose `GetConfig` failed; otherwise scan `j = 0..i-1`
for the first already-established group (`configCounter[j] ≠ 0`) holding a
deep-equal config and increment it, and if none exists start a new group at
`i` with counter 1 (the `j == i` branch of the Go loop). -/
def configStep (serverConfigs : List α) (errs : List (Option ε))
    (configCounter : List Nat) (i : Nat) : List Nat :=
  if (errs.getD i none).isSome then configCounter
  else
    match (List.range i).find? (fun j =>
        decide (configCounter.getD j 0 ≠ 0 ∧
          serverConfigs.getD j default = serverConfigs.getD i default)) with
    | some j => configCounter.set j (configCounter.getD j 0 + 1)
    | none => configCounter.set i 1

/-- The `configCounter` array of `getValidServerConfig` after the counting
loop has processed every index. -/
def configCounterOf (serverConfigs : List α) (errs : List (Option ε)) : List Nat :=
  (List.range serverConfigs.length).foldl (configStep serverConfigs errs)
    (List.replicate serverConfigs.length 0)

/-- The max-selection loop of `getValidServerConfig`: fold over the indices,
strictly improving `maxOccurrence` (so the first index attaining the maximal
counter value wins), starting from the zero value `serverConfigV13{}`. -/
def chooseWinner (serverConfigs : List α) (configCounter : List Nat) : Nat × α :=
  (List.range serverConfigs.length).foldl
    (fun acc i =>
      if acc.1 < configCounter.getD i 0 then (configCounter.getD i 0, serverConfigs.getD i default)
      else acc)
    (0, default)

/-- Embeds `getValidServerConfig`: count deep-equal configs of error-free
peers into groups anchored at lowest index, pick the maximally occurring one,
and require write quorum. -/
def getValidServerConfig (serverConfigs : List α) (errs : List (Option ε)) :
    Except AdminErr α :=
  let quorum := writeQuorum serverConfigs.length
  let configCounter := configCounterOf serverConfigs errs
  let maxOccurrence := (chooseWinner serverConfigs configCounter).1
  let configJSON := (chooseWinner serverConfigs configCounter).2
  if maxOccurrence < quorum then .error .errXLWriteQuorum
  else .ok configJSON

/-- Specification-side notion: peer `i` votes iff its `GetConfig` call
succeeded (and it is in range). -/
def votingPeer (serverConfigs : List α) (errs : List (Option ε)) (i : Nat) : Prop :=
  i < serverConfigs.length ∧ (errs.getD i none).isNone

instance (serverConfigs : List α) (errs : List (Option ε)) (i : Nat) :
    Decidable (votingPeer serverConfigs errs i) := by
  unfold votingPeer; infer_instance

/-- Specification-side notion: the number of error-free peers among the
first `k` whose snapshot deep-equals `v`. -/
def votesBelow (serverConfigs : List α) (errs : List (Option ε)) (k : Nat) (v : α) : Nat :=
  ((List.range k).filter (fun i =>
    decide (votingPeer serverConfigs errs i ∧ serverConfigs.getD i default = v))).length

/-- Specification-side notion: the occurrence count of snapshot `v` among
all error-free peers. -/
def votes (serverConfigs : List α) (errs : List (Option ε)) (v : α) : Nat :=
  votesBelow serverConfigs errs serverConfigs.length v

/-- Specification-side notion: index `i` anchors a group iff it is the
lowest error-free index holding its snapshot value. -/
def isAnchor (serverConfigs : List α) (errs : List (Option ε)) (i : Nat) : Prop :=
  votingPeer serverConfigs errs i ∧
    ∀ j < i, votingPeer serverConfigs errs j →
      serverConfigs.getD j default ≠ serverConfigs.getD i default

instance (serverConfigs : List α) (errs : List (Option ε)) (i : Nat) :
    Decidable (isAnchor serverConfigs errs i) := by
  unfold isAnchor; infer_instance

/-- Specification-side notion: the maximal occurrence count among error-free
peers' snapshots (0 when every peer errored). -/
def maxVoteCount (serverConfigs : List α) (errs : List (Option ε)) : Nat :=
  (((List.range serverConfigs.length).filter
      (fun i => decide (votingPeer serverConfigs errs i))).map
    (fun i => votes serverConfigs errs (serverConfigs.getD i default))).foldr max 0

end ConfigReconciler

section ReInitDisks

variable {ε : Type}

/-- Embeds `reInitPeerDisks`: the per-peer `ReInitDisks` outcomes are
gathered into `errs` and then dropped — the function returns `nil`
unconditionally. -/
def reInitPeerDisks (peerResults : List (Option ε)) : Option ε :=
  let _errs := peerResults
  none

end ReInitDisks

section Uptime

variable {ε : Type}

/-- One slot of the `uptimeSlice` gathered by `getPeerUptimes`: the result
of one peer's `Uptime()` call. -/
structure UptimeEntry (ε : Type) where
  err : Option ε
  uptime : Int
deriving DecidableEq

/-- Comparison used by `sort.Sort(uptimes)` (`Less` compares the `uptime`
fields); modelled as its reflexive closure so that a total preorder sorts. -/
def uptimeLE {ε : Type} (a b : UptimeEntry ε) : Prop := a.uptime ≤ b.uptime

instance : @DecidableRel (UptimeEntry ε) (uptimeLE) := fun a b =>
  inferInstanceAs (Decidable (a.uptime ≤ b.uptime))

instance : IsTotal (UptimeEntry ε) uptimeLE :=
  ⟨fun a b => Int.le_total a.uptime b.uptime⟩

instance : IsTrans (UptimeEntry ε) uptimeLE :=
  ⟨fun _ _ _ hab hbc => le_trans hab hbc⟩

/-- The scan loop of `getPeerUptimes`: walk the sorted slice, skip errored
entries, count valid ones, and stop at the first entry at which the running
count reaches `readQuorum`, recording its uptime. Returns the final
`(validCount, latestUptime)` pair. -/
def uptimeScan (readQuorum : Nat) : List (UptimeEntry ε) → Nat → Int → Nat × Int
  | [], validCount, latestUptime => (validCount, latestUptime)
  | u :: rest, validCount, latestUptime =>
    if u.err.isSome then uptimeScan readQuorum rest validCount latestUptime
    else if validCount + 1 ≥ readQuorum then (validCount + 1, u.uptime)
    else uptimeScan readQuorum rest (validCount + 1) latestUptime

/-- Embeds `getPeerUptimes`. In a non-distributed setup it returns
`now - globalBootTime` directly. Otherwise it sorts the gathered
`uptimeSlice` chronologically and picks the `readQuorum`-th valid uptime,
failing with `InsufficientReadQuorum` when the running count of valid
entries never reaches `readQuorum`. -/
def getPeerUptimes (globalIsDistXL : Bool) (now globalBootTime : Int)
    (uptimes : List (UptimeEntry ε)) : Except AdminErr Int :=
  if !globalIsDistXL then .ok (now - globalBootTime)
  else
    let sorted := List.insertionSort uptimeLE uptimes
    let readQuorum := uptimeReadQuorum uptimes.length
    let scanned := uptimeScan readQuorum sorted 0 0
    if scanned.1 < readQuorum then .error .insufficientReadQuorum
    else .ok scanned.2

/-- Embeds `localAdminClient.Uptime`: fails with `errServerNotInitialized`
while `globalBootTime.IsZero()`, else returns `now - globalBootTime`. -/
def localUptime (now globalBootTime : Int) : Except AdminErr Int :=
  if globalBootTime = 0 then .error .errServerNotInitialized
  else .ok (now - globalBootTime)

/-- Specification-side notion: the uptimes of the successful entries, in
slice order. -/
def validUptimes (uptimes : List (UptimeEntry ε)) : List Int :=
  (uptimes.filter (fun u => u.err.isNone)).map (fun u => u.uptime)

/-- Specification-side notion: how many peers reported success. -/
def validCountOf (uptimes : List (UptimeEntry ε)) : Nat :=
  (uptimes.filter (fun u => u.err.isNone)).length

end Uptime

section LockAggregator

variable {ε : Type} [DecidableEq ε] {ι : Type}

/-- One lock record, as they come back from `ListLocks`; `detail` stands for
the owner/timing metadata, which the aggregator never inspects. -/
structure VolumeLockInfo (ι : Type) where
  bucket : String
  object : String
  detail : ι

/-- Embeds `nsParam`: the `(volume, path)` key used to group lock records. -/
def nsParamOf (l : VolumeLockInfo ι) : String × String := (l.bucket, l.object)

/-- Modelled from the spec: `reduceErrs` is declared elsewhere in the
repository (not under `src/`). Per the Quorum Reducer section of the spec it
determines whether a single error value dominates the per-peer error array,
returning the dominant error (none when no peer erred) together with its
frequency. -/
def reduceErrs (errs : List (Option ε)) : Nat × Option ε :=
  let es := errs.filterMap id
  es.foldl
    (fun acc e => if acc.1 < es.count e then (es.count e, some e) else acc)
    (0, none)

/-- Specification-side notion: the frequency of the most frequent
individual error in the per-peer error array (0 when no peer erred). -/
def maxErrCountOf (errs : List (Option ε)) : Nat :=
  ((errs.filterMap id).map (fun e => (errs.filterMap id).count e)).foldr max 0

/-- Error outcomes of `listPeerLocksInfo`: a dominant per-peer error
propagated at quorum strength, or `InsufficientReadQuorum{}`. -/
inductive ListLocksError (ε : Type) : Type where
  | peer (e : ε) : ListLocksError ε
  | insufficientReadQuorum : ListLocksError ε

/-- Keys in order of first appearance; renders the iteration over the
`paramLockMap` accumulated in scan order. -/
def firstKeys (ks : List (String × String)) : List (String × String) :=
  ks.foldl (fun acc k => if k ∈ acc then acc else acc ++ [k]) []

/-- The grouping pass of `listPeerLocksInfo`: pool every node's records,
group them by `nsParam` into `paramLockMap` (each group keeps scan order)
and concatenate the groups back into `groupedLockInfos`. -/
def groupLockInfos (allLocks : List (List (VolumeLockInfo ι))) : List (VolumeLockInfo ι) :=
  let pooled := allLocks.flatten
  (firstKeys (pooled.map nsParamOf)).flatMap
    (fun k => pooled.filter (fun l => nsParamOf l = k))

/-- Embeds `listPeerLocksInfo` after the gather phase: reduce the per-peer
error array, propagate a dominant error only at read-quorum strength, fail
with `InsufficientReadQuorum{}` below it, and otherwise merge all lock
records. -/
def listPeerLocksInfo (allLocks : List (List (VolumeLockInfo ι)))
    (errs : List (Option ε)) : Except (ListLocksError ε) (List (VolumeLockInfo ι)) :=
  match reduceErrs errs with
  | (errCount, some e) =>
    if errCount ≥ lockReadQuorum errs.length then .error (.peer e)
    else .error .insufficientReadQuorum
  | (_, none) => .ok (groupLockInfos allLocks)

end LockAggregator

section ConfigFetch

variable {α β ε δ : Type} [DecidableEq α] [Inhabited α]

/-- Error outcomes of `getPeerConfig`: the local `GetConfig` error in the
non-distributed path, a peer's malformed payload (`json.Unmarshal` failure),
or the reconciliation's quorum failure. -/
inductive GetConfigError (ε δ : Type) : Type where
  | peer (e : ε) : GetConfigError ε δ
  | decode (d : δ) : GetConfigError ε δ
  | writeQuorum : GetConfigError ε δ

/-- The unmarshalling loop of `getPeerConfig`: `serverConfigs` starts as
zero values, indices whose `GetConfig` failed are skipped (left at the zero
value), and the first `json.Unmarshal` failure on an error-free index aborts
the whole loop with that error. -/
def decodeConfigs (decode : β → Except δ α) :
    List β → List (Option ε) → Except δ (List α)
  | [], _ => .ok []
  | _ :: _, [] => .ok []
  | c :: cs, e :: es =>
    match e with
    | some _ =>
      match decodeConfigs decode cs es with
      | .error d => .error d
      | .ok rest => .ok (default :: rest)
    | none =>
      match decode c with
      | .error d => .error d
      | .ok a =>
        match decodeConfigs decode cs es with
        | .error d => .error d
        | .ok rest => .ok (a :: rest)

/-- Embeds `getPeerConfig`. Non-distributed: the local `GetConfig` answer is
returned as is. Distributed: unmarshal every error-free peer's payload
(aborting on the first decode failure), reconcile via
`getValidServerConfig`, and re-marshal the winner. -/
def getPeerConfig (decode : β → Except δ α) (encode : α → β)
    (globalIsDistXL : Bool) (localResult : Except ε β)
    (configs : List β) (errs : List (Option ε)) : Except (GetConfigError ε δ) β :=
  if !globalIsDistXL then
    match localResult with
    | .error e => .error (.peer e)
    | .ok b => .ok b
  else
    match decodeConfigs decode configs errs with
    | .error d => .error (.decode d)
    | .ok serverConfigs =>
      match getValidServerConfig serverConfigs errs with
      | .error _ => .error .writeQuorum
      | .ok configJSON => .ok (encode configJSON)

end ConfigFetch

section PeerDirectory

/-- Credential shared by the cluster (`serverConfig.GetCredential()`). -/
structure Credential where
  accessKey : String
  secretKey : String

/-- The fields of `authConfig` that `makeAdminPeers` fills in per remote
peer (the remaining fields are global constants of the process). -/
structure AuthConfig where
  accessKey : String
  secretKey : String
  serverAddr : String

/-- A command runner: the `localAdminClient` variant or a
`remoteAdminClient` built over an RPC client for the given `authConfig`. -/
inductive CmdRunner : Type where
  | localClient : CmdRunner
  | remoteClient (cfg : AuthConfig) : CmdRunner

/-- Embeds `adminPeer`. -/
structure AdminPeer where
  addr : String
  cmdRunner : CmdRunner

/-- An endpoint as `makeAdminPeers` sees it: only its `Host` matters. -/
structure Endpoint where
  host : String

/-- The iteration of `makeAdminPeers` over the endpoints, carrying the
`seenAddr` set: endpoints with an empty host or an already-seen host are
skipped, every other host is appended as a remote peer wired with the shared
credential and its own address. -/
def makeAdminPeersLoop (serverCred : Credential) :
    List String → List Endpoint → List AdminPeer
  | _, [] => []
  | seenAddr, ep :: eps =>
    if ep.host = "" then makeAdminPeersLoop serverCred seenAddr eps
    else if ep.host ∈ seenAddr then makeAdminPeersLoop serverCred seenAddr eps
    else
      { addr := ep.host,
        cmdRunner := .remoteClient
          { accessKey := serverCred.accessKey,
            secretKey := serverCred.secretKey,
            serverAddr := ep.host } } ::
        makeAdminPeersLoop serverCred (ep.host :: seenAddr) eps

/-- Embeds `makeAdminPeers`: the local peer (`globalMinioAddr`, local
runner) goes first and is marked seen, then the endpoints are scanned for
new remote peers. -/
def makeAdminPeers (globalMinioAddr : String) (serverCred : Credential)
    (eps : List Endpoint) : List AdminPeer :=
  { addr := globalMinioAddr, cmdRunner := .localClient } ::
    makeAdminPeersLoop serverCred [globalMinioAddr] eps

/-- Specification-side notion (mirrors the words of the spec): the remote
addresses in the order they first appear among the inputs, skipping empty
addresses and duplicates, including duplicates of anything in `seen`. -/
def specRemoteAddrs : List String → List String → List String
  | _, [] => []
  | seen, h :: hs =>
    if h = "" ∨ h ∈ seen then specRemoteAddrs seen hs
    else h :: specRemoteAddrs (h :: seen) hs

end PeerDirectory

/-! ### Claim C3: quorum thresholds -/

/-- C3: for every cluster size N ≥ 1, the write quorum used by config
reconciliation is ⌊N/2⌋+1, the read quorum for lock aggregation is ⌊N/2⌋+1,
and the read quorum for uptime aggregation is ⌊N/2⌋; in particular at
N = 1, 2, 3, 4, 5 these are (1,2,2,3,3), (1,2,2,3,3) and (0,1,1,2,2). -/
theorem quorum_thresholds (n : Nat) (hn : 1 ≤ n) :
    (writeQuorum n = n / 2 + 1 ∧ lockReadQuorum n = n / 2 + 1 ∧
      uptimeReadQuorum n = n / 2) ∧
    (writeQuorum 1 = 1 ∧ writeQuorum 2 = 2 ∧ writeQuorum 3 = 2 ∧
      writeQuorum 4 = 3 ∧ writeQuorum 5 = 3) ∧
    (lockReadQuorum 1 = 1 ∧ lockReadQuorum 2 = 2 ∧ lockReadQuorum 3 = 2 ∧
      lockReadQuorum 4 = 3 ∧ lockReadQuorum 5 = 3) ∧
    (uptimeReadQuorum 1 = 0 ∧ uptimeReadQuorum 2 = 1 ∧ uptimeReadQuorum 3 = 1 ∧
      uptimeReadQuorum 4 = 2 ∧ uptimeReadQuorum 5 = 2) := by
  refine ⟨⟨rfl, rfl, rfl⟩, ?_, ?_, ?_⟩ <;> exact ⟨rfl, rfl, rfl, rfl, rfl⟩

/-- Witness for C3 at the concrete cluster size N = 5. -/
theorem quorum_thresholds_witness :
    (1 ≤ 5) ∧ (writeQuorum 5 = 5 / 2 + 1 ∧ lockReadQuorum 5 = 5 / 2 + 1 ∧
      uptimeReadQuorum 5 = 5 / 2) :=
  ⟨by decide, (quorum_thresholds 5 (by decide)).1⟩

/-! ### Claim C6: reinit-disks broadcast always succeeds -/

/-- C6: `reInitPeerDisks` discards the collected per-peer errors and reports
success for every peer-result combination, including when every peer call
fails. -/
theorem reInitPeerDisks_always_succeeds {ε : Type} (peerResults : List (Option ε))
    (e : ε) (k : Nat) :
    reInitPeerDisks peerResults = none ∧
    reInitPeerDisks (List.replicate k (some e)) = none :=
  ⟨rfl, rfl⟩

/-! ### Claim C9: single-node uptime path never fails -/

/-- C9: in a non-distributed deployment `getPeerUptimes` returns
`now - globalBootTime` unconditionally — even when no boot time was recorded
(`globalBootTime = 0`), where `localAdminClient.Uptime` would have reported
`errServerNotInitialized`. -/
theorem getPeerUptimes_single_node {ε : Type} (now globalBootTime : Int)
    (uptimes : List (UptimeEntry ε)) :
    getPeerUptimes false now globalBootTime uptimes = .ok (now - globalBootTime) ∧
    getPeerUptimes false now globalBootTime uptimes ≠ .error .errServerNotInitialized ∧
    getPeerUptimes false now 0 uptimes = .ok (now - 0) ∧
    localUptime now 0 = .error .errServerNotInitialized :=
  ⟨rfl, by simp [getPeerUptimes], rfl, rfl⟩

/-! ### Claim C8: the peer directory -/

/-- helper: the remote-peer loop of `makeAdminPeers` produces exactly the
addresses described by the spec-side `specRemoteAddrs`. -/
theorem makeAdminPeersLoop_map_addr (serverCred : Credential) :
    ∀ (eps : List Endpoint) (seenAddr : List String),
      (makeAdminPeersLoop serverCred seenAddr eps).map AdminPeer.addr
        = specRemoteAddrs seenAddr (eps.map Endpoint.host)
  | [], _ => rfl
  | ep :: eps, seenAddr => by
    by_cases h0 : ep.host = ""
    · simp only [makeAdminPeersLoop, if_pos h0, List.map_cons, specRemoteAddrs,
        if_pos (Or.inl h0)]
      exact makeAdminPeersLoop_map_addr serverCred eps seenAddr
    · by_cases h1 : ep.host ∈ seenAddr
      · simp only [makeAdminPeersLoop, if_neg h0, if_pos h1, List.map_cons,
          specRemoteAddrs, if_pos (Or.inr h1)]
        exact makeAdminPeersLoop_map_addr serverCred eps seenAddr
      · have hn : ¬(ep.host = "" ∨ ep.host ∈ seenAddr) := by
          intro h; rcases h with h | h; exact h0 h; exact h1 h
        simp only [makeAdminPeersLoop, if_neg h0, if_neg h1, List.map_cons,
          specRemoteAddrs, if_neg hn]
        exact congrArg _ (makeAdminPeersLoop_map_addr serverCred eps (ep.host :: seenAddr))

/-- helper: `specRemoteAddrs` yields addresses outside `seen`, without
duplicates. -/
theorem specRemoteAddrs_nodup :
    ∀ (hosts : List String) (seen : List String),
      (specRemoteAddrs seen hosts).Nodup ∧ ∀ a ∈ specRemoteAddrs seen hosts, a ∉ seen
  | [], _ => ⟨List.nodup_nil, by intro a ha; cases ha⟩
  | h :: hs, seen => by
    by_cases hc : h = "" ∨ h ∈ seen
    · simpa only [specRemoteAddrs, if_pos hc] using specRemoteAddrs_nodup hs seen
    · obtain ⟨ih1, ih2⟩ := specRemoteAddrs_nodup hs (h :: seen)
      simp only [specRemoteAddrs, if_neg hc]
      constructor
      · exact List.nodup_cons.mpr ⟨fun hmem => (ih2 h hmem) (List.mem_cons_self h seen), ih1⟩
      · intro a ha hseen
        rcases List.mem_cons.mp ha with rfl | ha'
        · exact hc (Or.inr hseen)
        · exact ih2 a ha' (List.mem_cons_of_mem h hseen)

/-- helper: every peer built by the loop carries a remote runner wired with
the shared credential and its own address. -/
theorem makeAdminPeersLoop_runner (serverCred : Credential) :
    ∀ (eps : List Endpoint) (seenAddr : List String),
      ∀ p ∈ makeAdminPeersLoop serverCred seenAddr eps,
        p.cmdRunner = .remoteClient
          { accessKey := serverCred.accessKey,
            secretKey := serverCred.secretKey,
            serverAddr := p.addr }
  | [], _ => by intro p hp; cases hp
  | ep :: eps, seenAddr => by
    intro p hp
    by_cases h0 : ep.host = ""
    · rw [makeAdminPeersLoop, if_pos h0] at hp
      exact makeAdminPeersLoop_runner serverCred eps seenAddr p hp
    · by_cases h1 : ep.host ∈ seenAddr
      · rw [makeAdminPeersLoop, if_neg h0, if_pos h1] at hp
        exact makeAdminPeersLoop_runner serverCred eps seenAddr p hp
      · rw [makeAdminPeersLoop, if_neg h0, if_neg h1] at hp
        rcases List.mem_cons.mp hp with rfl | hp'
        · rfl
        · exact makeAdminPeersLoop_runner serverCred eps (ep.host :: seenAddr) p hp'

/-- C8: for every endpoint list, `makeAdminPeers` puts the local peer (with
the local address and a local runner) at index 0, the remote addresses
follow in first-appearance order with empty addresses and duplicates
(including of the local address) skipped, all peer addresses are pairwise
distinct, and every remote peer carries a remote runner configured with the
shared credential and its own address; construction is a total function. -/
theorem makeAdminPeers_spec (globalMinioAddr : String) (serverCred : Credential)
    (eps : List Endpoint) :
    (makeAdminPeers globalMinioAddr serverCred eps).head?
      = some { addr := globalMinioAddr, cmdRunner := .localClient } ∧
    (makeAdminPeers globalMinioAddr serverCred eps).map AdminPeer.addr
      = globalMinioAddr :: specRemoteAddrs [globalMinioAddr] (eps.map Endpoint.host) ∧
    ((makeAdminPeers globalMinioAddr serverCred eps).map AdminPeer.addr).Nodup ∧
    ∀ p ∈ (makeAdminPeers globalMinioAddr serverCred eps).tail,
      p.cmdRunner = .remoteClient
        { accessKey := serverCred.accessKey,
          secretKey := serverCred.secretKey,
          serverAddr := p.addr } := by
  refine ⟨rfl, ?_, ?_, ?_⟩
  · show _ :: (makeAdminPeersLoop serverCred [globalMinioAddr] eps).map AdminPeer.addr = _
    rw [makeAdminPeersLoop_map_addr]
  · show (_ :: (makeAdminPeersLoop serverCred [globalMinioAddr] eps).map AdminPeer.addr).Nodup
    rw [makeAdminPeersLoop_map_addr]
    obtain ⟨h1, h2⟩ := specRemoteAddrs_nodup (eps.map Endpoint.host) [globalMinioAddr]
    exact List.nodup_cons.mpr
      ⟨fun hmem => h2 _ hmem (List.mem_singleton.mpr rfl), h1⟩
  · intro p hp
    exact makeAdminPeersLoop_runner serverCred eps [globalMinioAddr] p hp

/-! ### Claims C1 and C4: config reconciliation -/

section ConfigReconcilerProofs

variable {α : Type} [DecidableEq α] [Inhabited α] {ε : Type}

/-- helper: a freshly allocated counter reads 0 everywhere. -/
theorem getD_replicate_zero (n j : Nat) : (List.replicate n (0:Nat)).getD j 0 = 0 := by
  simp only [List.getD_eq_getElem?_getD, List.getElem?_replicate]
  split <;> rfl

/-- helper: `getD` at an index other than the one being set. -/
theorem getD_set_ne (C : List Nat) {k j : Nat} (h : k ≠ j) (x : Nat) :
    (C.set k x).getD j 0 = C.getD j 0 := by
  simp only [List.getD_eq_getElem?_getD, List.getElem?_set_ne h]

/-- helper: `getD` at the index being set. -/
theorem getD_set_self (C : List Nat) {k : Nat} (hk : k < C.length) (x : Nat) :
    (C.set k x).getD k 0 = x := by
  simp only [List.getD_eq_getElem?_getD, List.getElem?_set_self hk, Option.getD_some]

/-- helper: one counting step preserves the counter length. -/
theorem configStep_length (cfgs : List α) (errs : List (Option ε)) (C : List Nat) (i : Nat) :
    (configStep cfgs errs C i).length = C.length := by
  unfold configStep
  split
  · rfl
  · split <;> simp only [List.length_set]

/-- helper: the counting loop preserves the counter length. -/
theorem configCounterLoop_length (cfgs : List α) (errs : List (Option ε)) :
    ∀ (l : List Nat) (C : List Nat),
      (l.foldl (configStep cfgs errs) C).length = C.length
  | [], _ => rfl
  | i :: l, C => by
    rw [List.foldl_cons, configCounterLoop_length cfgs errs l, configStep_length]

/-- helper: the full counter has one slot per peer. -/
theorem configCounterOf_length (cfgs : List α) (errs : List (Option ε)) :
    (configCounterOf cfgs errs).length = cfgs.length := by
  rw [configCounterOf, configCounterLoop_length, List.length_replicate]

/-- helper: extending the scanned prefix by one index adds one vote exactly
when that index is an error-free holder of the value. -/
theorem votesBelow_succ (cfgs : List α) (errs : List (Option ε)) (k : Nat) (v : α) :
    votesBelow cfgs errs (k+1) v =
      votesBelow cfgs errs k v +
        (if votingPeer cfgs errs k ∧ cfgs.getD k default = v then 1 else 0) := by
  unfold votesBelow
  rw [List.range_succ, List.filter_append, List.length_append]
  congr 1
  rw [List.filter_singleton]
  by_cases h : votingPeer cfgs errs k ∧ cfgs.getD k default = v
  · rw [decide_eq_true h, if_pos h]; rfl
  · rw [decide_eq_false h, if_neg h]; rfl

/-- helper: a voting index below `k` contributes a positive vote count for
its own value. -/
theorem votesBelow_pos (cfgs : List α) (errs : List (Option ε)) {k j : Nat}
    (hj : j < k) (hv : votingPeer cfgs errs j) :
    0 < votesBelow cfgs errs k (cfgs.getD j default) := by
  unfold votesBelow
  have hm : j ∈ (List.range k).filter (fun i =>
      decide (votingPeer cfgs errs i ∧ cfgs.getD i default = cfgs.getD j default)) := by
    rw [List.mem_filter]
    exact ⟨List.mem_range.mpr hj, by simp [hv]⟩
  exact List.length_pos.mpr (List.ne_nil_of_mem hm)

/-- helper: `find?` over `range k` finds the least index satisfying the
predicate. -/
theorem find?_range_eq_some {p : Nat → Bool} {a : Nat} (hpa : p a = true)
    (hmin : ∀ j < a, p j = false) :
    ∀ {k : Nat}, a < k → (List.range k).find? p = some a := by
  intro k
  induction k with
  | zero => intro h; cases h
  | succ k ih =>
    intro hak
    rw [List.range_succ, List.find?_append]
    rcases Nat.lt_or_ge a k with h | h
    · rw [ih h]; rfl
    · have hak' : a = k := Nat.le_antisymm (Nat.lt_succ_iff.mp hak) h
      subst hak'
      have hnone : (List.range a).find? p = none := by
        rw [List.find?_eq_none]
        intro x hx
        simp [hmin x (List.mem_range.mp hx)]
      rw [hnone]
      simp [List.find?, hpa]

/-- helper: two anchors holding deep-equal snapshots coincide. -/
theorem anchor_unique (cfgs : List α) (errs : List (Option ε)) {j a : Nat}
    (hj : isAnchor cfgs errs j) (ha : isAnchor cfgs errs a)
    (hv : cfgs.getD j default = cfgs.getD a default) : j = a := by
  rcases Nat.lt_trichotomy j a with h | h | h
  · exact absurd hv (ha.2 j h hj.1)
  · exact h
  · exact absurd hv.symm (hj.2 a h ha.1)

/-- helper: every voting peer has an anchor holding its snapshot. -/
theorem exists_anchor (cfgs : List α) (errs : List (Option ε)) {i : Nat}
    (hi : votingPeer cfgs errs i) :
    ∃ a, isAnchor cfgs errs a ∧ a ≤ i ∧
      cfgs.getD a default = cfgs.getD i default := by
  have hQ : votingPeer cfgs errs i ∧ cfgs.getD i default = cfgs.getD i default :=
    ⟨hi, rfl⟩
  have hex : ∃ j, votingPeer cfgs errs j ∧ cfgs.getD j default = cfgs.getD i default :=
    ⟨i, hQ⟩
  refine ⟨Nat.find hex, ⟨(Nat.find_spec hex).1, ?_⟩, Nat.find_min' hex hQ,
    (Nat.find_spec hex).2⟩
  intro j hj hvj heq
  exact Nat.find_min hex hj ⟨hvj, heq.trans (Nat.find_spec hex).2⟩

/-- helper: after the counting loop has processed the first `k` indices, a
counter slot holds the running vote count of the group it anchors, and `0`
otherwise. -/
theorem configCounter_invariant (cfgs : List α) (errs : List (Option ε)) :
    ∀ (k : Nat), k ≤ cfgs.length → ∀ j,
      ((List.range k).foldl (configStep cfgs errs)
          (List.replicate cfgs.length 0)).getD j 0
        = if isAnchor cfgs errs j ∧ j < k
            then votesBelow cfgs errs k (cfgs.getD j default) else 0 := by
  intro k
  induction k with
  | zero =>
    intro _ j
    rw [List.range_zero, List.foldl_nil, getD_replicate_zero, if_neg]
    rintro ⟨-, h⟩
    exact Nat.not_lt_zero j h
  | succ k ih =>
    intro hk j
    have hk' : k < cfgs.length := hk
    have ihk := ih (Nat.le_of_lt hk')
    rw [List.range_succ, List.foldl_append, List.foldl_cons, List.foldl_nil]
    set C := (List.range k).foldl (configStep cfgs errs)
      (List.replicate cfgs.length 0) with hCdef
    have hClen : C.length = cfgs.length := by
      rw [hCdef, configCounterLoop_length, List.length_replicate]
    have F1 : ∀ i, C.getD i 0 ≠ 0 ↔ (isAnchor cfgs errs i ∧ i < k) := by
      intro i
      rw [ihk i]
      by_cases h : isAnchor cfgs errs i ∧ i < k
      · rw [if_pos h]
        have hp := votesBelow_pos cfgs errs h.2 h.1.1
        exact ⟨fun _ => h, fun _ => Nat.pos_iff_ne_zero.mp hp⟩
      · rw [if_neg h]
        simp [h]
    by_cases herr : (errs.getD k none).isSome = true
    · -- the peer at index k errored: the step is a no-op
      have hnv : ¬ votingPeer cfgs errs k := by
        rintro ⟨-, hnone⟩
        rw [Option.isNone_iff_eq_none] at hnone
        rw [hnone] at herr
        exact Bool.noConfusion herr
      unfold configStep
      rw [if_pos herr, ihk j]
      by_cases h : isAnchor cfgs errs j ∧ j < k
      · rw [if_pos h, if_pos ⟨h.1, Nat.lt_succ_of_lt h.2⟩]
        rw [votesBelow_succ, if_neg (fun hc => hnv hc.1), Nat.add_zero]
      · rw [if_neg h, if_neg]
        rintro ⟨ha, hlt⟩
        rcases Nat.lt_succ_iff_lt_or_eq.mp hlt with h' | rfl
        · exact h ⟨ha, h'⟩
        · exact hnv ha.1
    · -- the peer at index k voted
      have hvk : votingPeer cfgs errs k := by
        refine ⟨hk', ?_⟩
        rcases hn : errs.getD k none with _ | e
        · rfl
        · rw [hn] at herr
          exact absurd rfl herr
      by_cases hanch : isAnchor cfgs errs k
      · -- index k starts a new group (the j == i branch)
        have hfind : (List.range k).find? (fun j' => decide (C.getD j' 0 ≠ 0 ∧
            cfgs.getD j' default = cfgs.getD k default)) = none := by
          rw [List.find?_eq_none]
          intro x hx hpx
          have hpx' := of_decide_eq_true hpx
          have hax := (F1 x).mp hpx'.1
          exact hanch.2 x (List.mem_range.mp hx) hax.1.1 hpx'.2
        unfold configStep
        rw [if_neg herr, hfind]
        by_cases hjk : j = k
        · subst hjk
          rw [getD_set_self C (hClen ▸ hk') 1,
            if_pos ⟨hanch, Nat.lt_succ_self j⟩,
            votesBelow_succ, if_pos ⟨hvk, rfl⟩]
          have h0 : votesBelow cfgs errs j (cfgs.getD j default) = 0 := by
            unfold votesBelow
            rw [List.length_eq_zero, List.filter_eq_nil_iff]
            intro x hx hpx
            have hpx' := of_decide_eq_true hpx
            exact hanch.2 x (List.mem_range.mp hx) hpx'.1 hpx'.2
          rw [h0]
        · rw [getD_set_ne C (fun h => hjk h.symm) 1, ihk j]
          by_cases h : isAnchor cfgs errs j ∧ j < k
          · rw [if_pos h, if_pos ⟨h.1, Nat.lt_succ_of_lt h.2⟩,
              votesBelow_succ, if_neg, Nat.add_zero]
            rintro ⟨-, hvkj⟩
            exact hanch.2 j h.2 h.1.1 hvkj.symm
          · rw [if_neg h, if_neg]
            rintro ⟨ha, hlt⟩
            rcases Nat.lt_succ_iff_lt_or_eq.mp hlt with h' | rfl
            · exact h ⟨ha, h'⟩
            · exact hjk rfl
      · -- index k joins the group of the least earlier equal snapshot
        have hex : ∃ a, a < k ∧ votingPeer cfgs errs a ∧
            cfgs.getD a default = cfgs.getD k default := by
          by_contra hno
          push_neg at hno
          exact hanch ⟨hvk, fun j' hj' hv' => hno j' hj' hv'⟩
        obtain ⟨hak, hva, hveq⟩ := Nat.find_spec hex
        have hanchA : isAnchor cfgs errs (Nat.find hex) := by
          refine ⟨hva, ?_⟩
          intro j' hj' hv' heq'
          exact Nat.find_min hex hj' ⟨Nat.lt_trans hj' hak, hv', heq'.trans hveq⟩
        have hfind : (List.range k).find? (fun j' => decide (C.getD j' 0 ≠ 0 ∧
            cfgs.getD j' default = cfgs.getD k default)) = some (Nat.find hex) := by
          refine find?_range_eq_some (decide_eq_true ⟨(F1 _).mpr ⟨hanchA, hak⟩, hveq⟩)
            ?_ hak
          intro j' hj'
          refine decide_eq_false ?_
          rintro ⟨hC0, heq'⟩
          obtain ⟨haj, hjk2⟩ := (F1 j').mp hC0
          exact Nat.find_min hex hj' ⟨hjk2, haj.1, heq'⟩
        unfold configStep
        rw [if_neg herr, hfind]
        by_cases hja : j = Nat.find hex
        · rw [hja, getD_set_self C (by rw [hClen]; exact Nat.lt_trans hak hk') _,
            ihk (Nat.find hex), if_pos ⟨hanchA, hak⟩,
            if_pos ⟨hanchA, Nat.lt_succ_of_lt hak⟩,
            votesBelow_succ, if_pos ⟨hvk, hveq.symm⟩]
        · rw [getD_set_ne C (fun h => hja h.symm) _, ihk j]
          by_cases h : isAnchor cfgs errs j ∧ j < k
          · rw [if_pos h, if_pos ⟨h.1, Nat.lt_succ_of_lt h.2⟩,
              votesBelow_succ, if_neg, Nat.add_zero]
            rintro ⟨-, hkj⟩
            exact hja (anchor_unique cfgs errs h.1 hanchA (hkj.symm.trans hveq.symm))
          · rw [if_neg h, if_neg]
            rintro ⟨ha2, hlt⟩
            rcases Nat.lt_succ_iff_lt_or_eq.mp hlt with h' | rfl
            · exact h ⟨ha2, h'⟩
            · exact hanch ha2

/-- helper: the final counter: a slot holds the total vote count of the
snapshot it anchors, and 0 at every non-anchor index. -/
theorem configCounterOf_spec (cfgs : List α) (errs : List (Option ε)) (j : Nat) :
    (configCounterOf cfgs errs).getD j 0
      = if isAnchor cfgs errs j
          then votes cfgs errs (cfgs.getD j default) else 0 := by
  have h := configCounter_invariant cfgs errs cfgs.length le_rfl j
  rw [configCounterOf, h]
  by_cases ha : isAnchor cfgs errs j
  · rw [if_pos ⟨ha, ha.1.1⟩, if_pos ha]
    rfl
  · rw [if_neg (fun hc => ha hc.1), if_neg ha]

/-- helper: every member is below the running maximum. -/
theorem le_foldr_max {l : List Nat} {x : Nat} (hx : x ∈ l) : x ≤ l.foldr max 0 := by
  induction l with
  | nil => cases hx
  | cons a t ih =>
    rcases List.mem_cons.mp hx with rfl | h
    · exact le_max_left _ _
    · exact le_trans (ih h) (le_max_right _ _)

/-- helper: the running maximum is below any common upper bound. -/
theorem foldr_max_le {l : List Nat} {m : Nat} (h : ∀ x ∈ l, x ≤ m) :
    l.foldr max 0 ≤ m := by
  induction l with
  | nil => exact Nat.zero_le m
  | cons a t ih =>
    exact max_le (h a (List.mem_cons_self a t)) (ih fun x hx => h x (List.mem_cons_of_mem a hx))

/-- helper: characterization of the max-selection fold of
`getValidServerConfig` from an arbitrary accumulator: the result bounds every
counter slot and, unless the accumulator survives untouched, it is attained
at a first index all of whose predecessors hold strictly smaller counters. -/
theorem chooseWinnerAux (cfgs : List α) (counter : List Nat) :
    ∀ (n : Nat) (acc : Nat × α),
      acc.1 ≤ ((List.range n).foldl (fun acc i =>
          if acc.1 < counter.getD i 0 then (counter.getD i 0, cfgs.getD i default)
          else acc) acc).1 ∧
      (∀ i < n, counter.getD i 0 ≤ ((List.range n).foldl (fun acc i =>
          if acc.1 < counter.getD i 0 then (counter.getD i 0, cfgs.getD i default)
          else acc) acc).1) ∧
      (((List.range n).foldl (fun acc i =>
          if acc.1 < counter.getD i 0 then (counter.getD i 0, cfgs.getD i default)
          else acc) acc) = acc ∨
        ∃ i < n, counter.getD i 0 = ((List.range n).foldl (fun acc i =>
            if acc.1 < counter.getD i 0 then (counter.getD i 0, cfgs.getD i default)
            else acc) acc).1 ∧
          ((List.range n).foldl (fun acc i =>
            if acc.1 < counter.getD i 0 then (counter.getD i 0, cfgs.getD i default)
            else acc) acc).2 = cfgs.getD i default ∧
          acc.1 < counter.getD i 0 ∧
          ∀ j < i, counter.getD j 0 < counter.getD i 0) := by
  intro n
  induction n with
  | zero =>
    intro acc
    refine ⟨le_rfl, ?_, Or.inl rfl⟩
    intro i hi
    exact absurd hi (Nat.not_lt_zero i)
  | succ n ih =>
    intro acc
    obtain ⟨ih1, ih2, ih3⟩ := ih acc
    rw [List.range_succ, List.foldl_append, List.foldl_cons, List.foldl_nil]
    set r := (List.range n).foldl (fun acc i =>
      if acc.1 < counter.getD i 0 then (counter.getD i 0, cfgs.getD i default)
      else acc) acc with hrdef
    by_cases himp : r.1 < counter.getD n 0
    · rw [if_pos himp]
      refine ⟨le_trans ih1 (le_of_lt himp), ?_, Or.inr ?_⟩
      · intro i hi
        rcases Nat.lt_succ_iff_lt_or_eq.mp hi with h' | rfl
        · exact le_trans (ih2 i h') (le_of_lt himp)
        · exact le_rfl
      · refine ⟨n, Nat.lt_succ_self n, rfl, rfl, lt_of_le_of_lt ih1 himp, ?_⟩
        intro j hj
        exact lt_of_le_of_lt (ih2 j hj) himp
    · rw [if_neg himp]
      refine ⟨ih1, ?_, ?_⟩
      · intro i hi
        rcases Nat.lt_succ_iff_lt_or_eq.mp hi with h' | rfl
        · exact ih2 i h'
        · exact Nat.le_of_not_lt himp
      · rcases ih3 with h | ⟨i, hi, h1, h2, h3, h4⟩
        · exact Or.inl h
        · exact Or.inr ⟨i, Nat.lt_succ_of_lt hi, h1, h2, h3, h4⟩

/-- helper: the `maxOccurrence` computed by `getValidServerConfig` equals the
specification-side maximal vote count among error-free peers. -/
theorem chooseWinner_fst_eq_maxVoteCount (cfgs : List α) (errs : List (Option ε)) :
    (chooseWinner cfgs (configCounterOf cfgs errs)).1 = maxVoteCount cfgs errs := by
  obtain ⟨h1, h2, h3⟩ := chooseWinnerAux cfgs (configCounterOf cfgs errs)
    cfgs.length (0, default)
  apply Nat.le_antisymm
  · -- the algorithm's max is one of the counter values (or 0), each below the spec max
    rcases h3 with h | ⟨i, hi, hcnt, -, -, -⟩
    · rw [chooseWinner, h]
      exact Nat.zero_le _
    · rw [chooseWinner, ← hcnt]
      rw [configCounterOf_spec cfgs errs i]
      by_cases ha : isAnchor cfgs errs i
      · rw [if_pos ha]
        apply le_foldr_max
        refine List.mem_map.mpr ⟨i, ?_, rfl⟩
        rw [List.mem_filter]
        exact ⟨List.mem_range.mpr ha.1.1, decide_eq_true ha.1⟩
      · rw [if_neg ha]
        exact Nat.zero_le _
  · -- every spec vote count is attained at its anchor's counter slot
    apply foldr_max_le
    intro x hx
    obtain ⟨i, hifil, hxi⟩ := List.mem_map.mp hx
    rw [List.mem_filter] at hifil
    have hvi : votingPeer cfgs errs i := of_decide_eq_true hifil.2
    obtain ⟨a, hanchA, hai, haval⟩ := exists_anchor cfgs errs hvi
    have hca : (configCounterOf cfgs errs).getD a 0 = x := by
      rw [configCounterOf_spec cfgs errs a, if_pos hanchA, haval, hxi]
    rw [← hca]
    exact h2 a (lt_of_le_of_lt hai hvi.1)

/-- helper: `getValidServerConfig` unfolded to its quorum test. -/
theorem getValidServerConfig_eq (cfgs : List α) (errs : List (Option ε)) :
    getValidServerConfig cfgs errs =
      if (chooseWinner cfgs (configCounterOf cfgs errs)).1 < writeQuorum cfgs.length
      then .error .errXLWriteQuorum
      else .ok (chooseWinner cfgs (configCounterOf cfgs errs)).2 := rfl

end ConfigReconcilerProofs

/-- C1: config reconciliation succeeds (returning the winning snapshot)
exactly when the maximal occurrence count among error-free peers' snapshots
reaches the write quorum ⌊N/2⌋+1, and otherwise fails with
`errXLWriteQuorum` (the spec's InsufficientWriteQuorum); in particular for
N = 4, snapshots [A,B,A,A] give A (count 3 ≥ 3), while [A,B,C,D] (max count
1) and [A,B,A,B] (both counts 2) fail. -/
theorem getValidServerConfig_quorum :
    (∀ (α : Type) [DecidableEq α] [Inhabited α] (ε : Type)
        (serverConfigs : List α) (errs : List (Option ε)),
      ((∃ c, getValidServerConfig serverConfigs errs = .ok c) ↔
        writeQuorum serverConfigs.length ≤ maxVoteCount serverConfigs errs) ∧
      (getValidServerConfig serverConfigs errs = .error .errXLWriteQuorum ↔
        maxVoteCount serverConfigs errs < writeQuorum serverConfigs.length)) ∧
    getValidServerConfig ([0, 1, 0, 0] : List Nat)
        ([none, none, none, none] : List (Option Unit)) = .ok 0 ∧
    getValidServerConfig ([0, 1, 2, 3] : List Nat)
        ([none, none, none, none] : List (Option Unit)) = .error .errXLWriteQuorum ∧
    getValidServerConfig ([0, 1, 0, 1] : List Nat)
        ([none, none, none, none] : List (Option Unit)) = .error .errXLWriteQuorum := by
  refine ⟨?_, by decide, by decide, by decide⟩
  intro α instDE instInh ε serverConfigs errs
  have hmax := chooseWinner_fst_eq_maxVoteCount serverConfigs errs
  rw [getValidServerConfig_eq]
  by_cases h : (chooseWinner serverConfigs (configCounterOf serverConfigs errs)).1
      < writeQuorum serverConfigs.length
  · rw [if_pos h]
    rw [hmax] at h
    refine ⟨iff_of_false ?_ (not_le.mpr h), iff_of_true rfl h⟩
    rintro ⟨c, hc⟩
    exact Except.noConfusion hc
  · rw [if_neg h]
    rw [hmax] at h
    exact ⟨iff_of_true ⟨_, rfl⟩ (not_lt.mp h),
      iff_of_false (fun hc => Except.noConfusion hc) h⟩

/-- C4: each error-free peer's snapshot is counted in the group anchored at
the lowest error-free index holding a deep-equal snapshot (errored peers do
not vote and anchor no group), the group with the maximal count wins, and
with equal maximal counts the scan itself selects the group with the lower
anchor index — every earlier index either anchors a smaller group or none. -/
theorem getValidServerConfig_grouping :
    ∀ (α : Type) [DecidableEq α] [Inhabited α] (ε : Type)
      (serverConfigs : List α) (errs : List (Option ε)),
      (∀ j, (configCounterOf serverConfigs errs).getD j 0
          = if isAnchor serverConfigs errs j
              then votes serverConfigs errs (serverConfigs.getD j default) else 0) ∧
      (chooseWinner serverConfigs (configCounterOf serverConfigs errs)).1
          = maxVoteCount serverConfigs errs ∧
      (maxVoteCount serverConfigs errs ≠ 0 →
        ∃ a, isAnchor serverConfigs errs a ∧
          votes serverConfigs errs (serverConfigs.getD a default)
            = maxVoteCount serverConfigs errs ∧
          (∀ j < a, ¬(isAnchor serverConfigs errs j ∧
            votes serverConfigs errs (serverConfigs.getD j default)
              = maxVoteCount serverConfigs errs)) ∧
          (chooseWinner serverConfigs (configCounterOf serverConfigs errs)).2
            = serverConfigs.getD a default) := by
  intro α instDE instInh ε cfgs errs
  refine ⟨configCounterOf_spec cfgs errs, chooseWinner_fst_eq_maxVoteCount cfgs errs, ?_⟩
  intro hne
  obtain ⟨h1, h2, h3⟩ := chooseWinnerAux cfgs (configCounterOf cfgs errs)
    cfgs.length (0, default)
  have hmax := chooseWinner_fst_eq_maxVoteCount cfgs errs
  have hcw : (List.range cfgs.length).foldl (fun acc i =>
      if acc.1 < (configCounterOf cfgs errs).getD i 0
      then ((configCounterOf cfgs errs).getD i 0, cfgs.getD i default)
      else acc) (0, default) = chooseWinner cfgs (configCounterOf cfgs errs) := rfl
  rcases h3 with h | ⟨i, hi, hcnt, hval, hpos, hlt⟩
  · exfalso
    apply hne
    rw [← hmax, chooseWinner, h]
  · have hcnt' : (configCounterOf cfgs errs).getD i 0 = maxVoteCount cfgs errs := by
      rw [hcnt, hcw, hmax]
    have hanchI : isAnchor cfgs errs i := by
      by_contra hno
      rw [configCounterOf_spec cfgs errs i, if_neg hno] at hcnt'
      exact hne hcnt'.symm
    have hvotesI : votes cfgs errs (cfgs.getD i default) = maxVoteCount cfgs errs := by
      rw [← hcnt', configCounterOf_spec cfgs errs i, if_pos hanchI]
    refine ⟨i, hanchI, hvotesI, ?_, ?_⟩
    · rintro j hj ⟨hanchJ, hvj⟩
      have hj' : (configCounterOf cfgs errs).getD j 0 = maxVoteCount cfgs errs := by
        rw [configCounterOf_spec cfgs errs j, if_pos hanchJ, hvj]
      have := hlt j hj
      rw [hj', hcnt'] at this
      exact lt_irrefl _ this
    · rw [← hcw]
      exact hval

/-- Witness for C4: at the tie example [A,B,A,B] (both groups count 2) the
winner is the group anchored at index 0, i.e. snapshot A. -/
theorem getValidServerConfig_grouping_witness :
    ∃ a, isAnchor ([0, 1, 0, 1] : List Nat)
        ([none, none, none, none] : List (Option Unit)) a ∧
      votes ([0, 1, 0, 1] : List Nat) ([none, none, none, none] : List (Option Unit))
          (([0, 1, 0, 1] : List Nat).getD a default)
        = maxVoteCount ([0, 1, 0, 1] : List Nat)
            ([none, none, none, none] : List (Option Unit)) ∧
      (∀ j < a, ¬(isAnchor ([0, 1, 0, 1] : List Nat)
          ([none, none, none, none] : List (Option Unit)) j ∧
        votes ([0, 1, 0, 1] : List Nat) ([none, none, none, none] : List (Option Unit))
            (([0, 1, 0, 1] : List Nat).getD j default)
          = maxVoteCount ([0, 1, 0, 1] : List Nat)
              ([none, none, none, none] : List (Option Unit)))) ∧
      (chooseWinner ([0, 1, 0, 1] : List Nat)
          (configCounterOf ([0, 1, 0, 1] : List Nat)
            ([none, none, none, none] : List (Option Unit)))).2
        = ([0, 1, 0, 1] : List Nat).getD a default :=
  (getValidServerConfig_grouping Nat Unit [0, 1, 0, 1] [none, none, none, none]).2.2
    (by decide)

/-! ### Claim C2: distributed uptime aggregation -/

/-- helper: the scan loop returns the quorum-th valid uptime of its input
when the valid entries suffice, and otherwise counts them all. -/
theorem uptimeScan_spec {ε : Type} :
    ∀ (l : List (UptimeEntry ε)) (q vc : Nat) (lu : Int), vc < q →
      (q ≤ vc + validCountOf l →
        uptimeScan q l vc lu = (q, (validUptimes l).getD (q - vc - 1) 0)) ∧
      (vc + validCountOf l < q →
        uptimeScan q l vc lu = (vc + validCountOf l, lu)) := by
  intro l
  induction l with
  | nil =>
    intro q vc lu hvc
    constructor
    · intro hle
      exfalso
      simp only [validCountOf, List.filter_nil, List.length_nil, Nat.add_zero] at hle
      omega
    · intro _
      simp only [validCountOf, List.filter_nil, List.length_nil, Nat.add_zero, uptimeScan]
  | cons u rest ih =>
    intro q vc lu hvc
    rcases hu : u.err with _ | e
    · -- a valid entry
      have hcnt : validCountOf (u :: rest) = validCountOf rest + 1 := by
        simp [validCountOf, List.filter_cons, hu, Nat.add_comm]
      have hups : validUptimes (u :: rest) = u.uptime :: validUptimes rest := by
        simp [validUptimes, List.filter_cons, hu]
      have hstep : uptimeScan q (u :: rest) vc lu =
          if vc + 1 ≥ q then (vc + 1, u.uptime)
          else uptimeScan q rest (vc + 1) lu := by
        rw [uptimeScan, hu]
        rfl
      by_cases hq : vc + 1 ≥ q
      · have hq' : vc + 1 = q := by omega
        constructor
        · intro _
          rw [hstep, if_pos hq, hups]
          have h0 : q - vc - 1 = 0 := by omega
          rw [h0, List.getD_cons_zero, hq']
        · intro hlt
          exfalso
          rw [hcnt] at hlt
          omega
      · have hvc' : vc + 1 < q := by omega
        obtain ⟨ih1, ih2⟩ := ih q (vc + 1) lu hvc'
        constructor
        · intro hle
          rw [hstep, if_neg hq, ih1 (by rw [hcnt] at hle; omega), hups]
          have hidx : q - vc - 1 = (q - (vc + 1) - 1) + 1 := by omega
          rw [hidx, List.getD_cons_succ]
        · intro hlt
          rw [hstep, if_neg hq, ih2 (by rw [hcnt] at hlt; omega), hcnt]
          have : vc + 1 + validCountOf rest = vc + (validCountOf rest + 1) := by omega
          rw [this]
    · -- an errored entry is skipped
      have hcnt : validCountOf (u :: rest) = validCountOf rest := by
        simp [validCountOf, List.filter_cons, hu]
      have hups : validUptimes (u :: rest) = validUptimes rest := by
        simp [validUptimes, List.filter_cons, hu]
      have hstep : uptimeScan q (u :: rest) vc lu = uptimeScan q rest vc lu := by
        rw [uptimeScan, hu]
        rfl
      obtain ⟨ih1, ih2⟩ := ih q vc lu hvc
      rw [hstep, hcnt, hups]
      exact ⟨ih1, ih2⟩

/-- helper: sorting preserves the number of valid entries. -/
theorem validCountOf_insertionSort {ε : Type} (uptimes : List (UptimeEntry ε)) :
    validCountOf (List.insertionSort uptimeLE uptimes) = validCountOf uptimes := by
  unfold validCountOf
  rw [← List.countP_eq_length_filter, ← List.countP_eq_length_filter]
  exact (List.perm_insertionSort uptimeLE uptimes).countP_eq _

/-- helper: the valid entries of the chronologically sorted slice carry, in
order, exactly the ascending sequence of successfully reported uptimes. -/
theorem validUptimes_insertionSort {ε : Type} (uptimes : List (UptimeEntry ε)) :
    validUptimes (List.insertionSort uptimeLE uptimes)
      = List.insertionSort (· ≤ ·) (validUptimes uptimes) := by
  have hsorted : List.Sorted uptimeLE (List.insertionSort uptimeLE uptimes) :=
    List.sorted_insertionSort uptimeLE uptimes
  have hA : List.Sorted (· ≤ ·) (validUptimes (List.insertionSort uptimeLE uptimes)) := by
    unfold validUptimes
    exact List.pairwise_map.mpr (hsorted.filter _)
  have hB : List.Sorted (· ≤ ·) (List.insertionSort (· ≤ ·) (validUptimes uptimes)) :=
    List.sorted_insertionSort _ _
  have hperm : (validUptimes (List.insertionSort uptimeLE uptimes)).Perm
      (List.insertionSort (· ≤ ·) (validUptimes uptimes)) := by
    unfold validUptimes
    refine List.Perm.trans ?_ (List.perm_insertionSort _ _).symm
    exact ((List.perm_insertionSort uptimeLE uptimes).filter _).map _
  exact List.eq_of_perm_of_sorted hperm hA hB

/-- helper: the distributed branch of `getPeerUptimes` unfolded. -/
theorem getPeerUptimes_dist_eq {ε : Type} (now globalBootTime : Int)
    (uptimes : List (UptimeEntry ε)) :
    getPeerUptimes true now globalBootTime uptimes =
      if (uptimeScan (uptimeReadQuorum uptimes.length)
            (List.insertionSort uptimeLE uptimes) 0 0).1
          < uptimeReadQuorum uptimes.length
      then .error .insufficientReadQuorum
      else .ok (uptimeScan (uptimeReadQuorum uptimes.length)
            (List.insertionSort uptimeLE uptimes) 0 0).2 := rfl

/-- C2: in a distributed deployment, `getPeerUptimes` fails with
`InsufficientReadQuorum{}` exactly when fewer than the read quorum ⌊N/2⌋
peers report success, and otherwise (for a positive quorum) returns the
read-quorum-th smallest successfully reported uptime. -/
theorem getPeerUptimes_spec :
    ∀ (ε : Type) (now globalBootTime : Int) (uptimes : List (UptimeEntry ε)),
      (getPeerUptimes true now globalBootTime uptimes = .error .insufficientReadQuorum ↔
        validCountOf uptimes < uptimeReadQuorum uptimes.length) ∧
      (1 ≤ uptimeReadQuorum uptimes.length →
        uptimeReadQuorum uptimes.length ≤ validCountOf uptimes →
        getPeerUptimes true now globalBootTime uptimes
          = .ok ((List.insertionSort (· ≤ ·) (validUptimes uptimes)).getD
              (uptimeReadQuorum uptimes.length - 1) 0)) := by
  intro ε now bt uptimes
  have hvc : validCountOf (List.insertionSort uptimeLE uptimes) = validCountOf uptimes :=
    validCountOf_insertionSort uptimes
  rw [getPeerUptimes_dist_eq]
  rcases Nat.eq_zero_or_pos (uptimeReadQuorum uptimes.length) with hq0 | hq1
  · rw [hq0]
    rw [if_neg (Nat.not_lt_zero _)]
    constructor
    · exact iff_of_false (fun hc => Except.noConfusion hc) (Nat.not_lt_zero _)
    · intro h1
      exact absurd h1 (by omega)
  · obtain ⟨hs1, hs2⟩ := uptimeScan_spec (List.insertionSort uptimeLE uptimes)
      (uptimeReadQuorum uptimes.length) 0 0 hq1
    by_cases hcmp : uptimeReadQuorum uptimes.length
        ≤ validCountOf (List.insertionSort uptimeLE uptimes)
    · rw [hs1 (by omega)]
      rw [if_neg (lt_irrefl _)]
      constructor
      · refine iff_of_false (fun hc => Except.noConfusion hc) ?_
        rw [← hvc]
        omega
      · intro _ _
        rw [validUptimes_insertionSort, Nat.sub_zero]
    · rw [hs2 (by omega)]
      rw [if_pos (by omega)]
      constructor
      · refine iff_of_true rfl ?_
        rw [← hvc]
        omega
      · intro h1 h2
        exfalso
        rw [← hvc] at h2
        omega

/-- Witness for C2: five peers all succeed with uptimes [10,20,30,40,50];
the read quorum is 2 and the aggregate is the second-smallest uptime, 20. -/
theorem getPeerUptimes_spec_witness :
    (1 ≤ uptimeReadQuorum ([⟨none, 10⟩, ⟨none, 20⟩, ⟨none, 30⟩, ⟨none, 40⟩,
        ⟨none, 50⟩] : List (UptimeEntry Unit)).length) ∧
    getPeerUptimes true 0 0 ([⟨none, 10⟩, ⟨none, 20⟩, ⟨none, 30⟩, ⟨none, 40⟩,
        ⟨none, 50⟩] : List (UptimeEntry Unit)) = .ok 20 :=
  ⟨by decide,
    ((getPeerUptimes_spec Unit 0 0 [⟨none, 10⟩, ⟨none, 20⟩, ⟨none, 30⟩,
        ⟨none, 40⟩, ⟨none, 50⟩]).2 (by decide) (by decide)).trans (by decide)⟩

/-! ### Claim C5: lock aggregation -/

/-- helper: characterization of the strictly-improving maximum fold inside
`reduceErrs`, from an arbitrary accumulator. -/
theorem reduceErrsAux {ε : Type} [DecidableEq ε] (es : List ε) :
    ∀ (l : List ε) (acc : Nat × Option ε),
      acc.1 ≤ (l.foldl (fun acc e =>
          if acc.1 < es.count e then (es.count e, some e) else acc) acc).1 ∧
      (∀ e ∈ l, es.count e ≤ (l.foldl (fun acc e =>
          if acc.1 < es.count e then (es.count e, some e) else acc) acc).1) ∧
      ((l.foldl (fun acc e =>
          if acc.1 < es.count e then (es.count e, some e) else acc) acc) = acc ∨
        ∃ e ∈ l, (l.foldl (fun acc e =>
          if acc.1 < es.count e then (es.count e, some e) else acc) acc)
            = (es.count e, some e)) := by
  intro l
  induction l with
  | nil =>
    intro acc
    refine ⟨le_rfl, ?_, Or.inl rfl⟩
    intro e he
    cases he
  | cons e t ih =>
    intro acc
    rw [List.foldl_cons]
    by_cases h : acc.1 < es.count e
    · rw [if_pos h]
      obtain ⟨ih1, ih2, ih3⟩ := ih (es.count e, some e)
      refine ⟨le_trans (le_of_lt h) ih1, ?_, ?_⟩
      · intro e' he'
        rcases List.mem_cons.mp he' with rfl | he''
        · exact ih1
        · exact ih2 e' he''
      · rcases ih3 with hr | ⟨e', he', hr⟩
        · exact Or.inr ⟨e, List.mem_cons_self e t, hr⟩
        · exact Or.inr ⟨e', List.mem_cons_of_mem e he', hr⟩
    · rw [if_neg h]
      obtain ⟨ih1, ih2, ih3⟩ := ih acc
      refine ⟨ih1, ?_, ?_⟩
      · intro e' he'
        rcases List.mem_cons.mp he' with rfl | he''
        · exact le_trans (Nat.le_of_not_lt h) ih1
        · exact ih2 e' he''
      · rcases ih3 with hr | ⟨e', he', hr⟩
        · exact Or.inl hr
        · exact Or.inr ⟨e', List.mem_cons_of_mem e he', hr⟩

/-- helper: `reduceErrs` returns the frequency of the most frequent error,
it returns no dominant error exactly when no peer erred, and any dominant
error it returns attains that maximal frequency. -/
theorem reduceErrs_spec {ε : Type} [DecidableEq ε] (errs : List (Option ε)) :
    (reduceErrs errs).1 = maxErrCountOf errs ∧
    ((reduceErrs errs).2 = none ↔ errs.filterMap id = []) ∧
    (∀ e, (reduceErrs errs).2 = some e →
      (errs.filterMap id).count e = maxErrCountOf errs) := by
  have hre : reduceErrs errs = (errs.filterMap id).foldl (fun acc e =>
      if acc.1 < (errs.filterMap id).count e
      then ((errs.filterMap id).count e, some e) else acc) (0, none) := rfl
  obtain ⟨a1, a2, a3⟩ := reduceErrsAux (errs.filterMap id) (errs.filterMap id) (0, none)
  have hfst : (reduceErrs errs).1 = maxErrCountOf errs := by
    apply Nat.le_antisymm
    · rcases a3 with hr | ⟨e, he, hr⟩
      · rw [hre, hr]
        exact Nat.zero_le _
      · rw [hre, hr]
        exact le_foldr_max (List.mem_map.mpr ⟨e, he, rfl⟩)
    · apply foldr_max_le
      intro x hx
      obtain ⟨e, he, hxe⟩ := List.mem_map.mp hx
      rw [← hxe, hre]
      exact a2 e he
  refine ⟨hfst, ⟨?_, ?_⟩, ?_⟩
  · intro hnone
    rcases hes : errs.filterMap id with _ | ⟨e, t⟩
    · rfl
    · exfalso
      rcases a3 with hr | ⟨e', he', hr⟩
      · have hc := a2 e (by rw [hes]; exact List.mem_cons_self e t)
        rw [hr] at hc
        have hpos : 0 < (errs.filterMap id).count e :=
          List.count_pos_iff_mem.mpr (by rw [hes]; exact List.mem_cons_self e t)
        omega
      · rw [hre, hr] at hnone
        exact Option.noConfusion hnone
  · intro hes
    rw [hre, hes]
    rfl
  · intro e he
    rcases a3 with hr | ⟨e', he', hr⟩
    · rw [hre, hr] at he
      exact Option.noConfusion he
    · rw [hre, hr] at he
      have hee : e' = e := Option.some.inj he
      rw [← hfst, hre, hr, ← hee]

/-- helper: the key accumulator of `firstKeys` preserves distinctness and
only grows. -/
theorem firstKeysAux :
    ∀ (ks : List (String × String)) (acc : List (String × String)),
      (acc.Nodup → (ks.foldl (fun acc k => if k ∈ acc then acc else acc ++ [k]) acc).Nodup) ∧
      (∀ k ∈ acc, k ∈ ks.foldl (fun acc k => if k ∈ acc then acc else acc ++ [k]) acc) ∧
      (∀ k ∈ ks, k ∈ ks.foldl (fun acc k => if k ∈ acc then acc else acc ++ [k]) acc)
  | [], acc => by
    refine ⟨fun h => h, fun k hk => hk, ?_⟩
    intro k hk
    cases hk
  | k0 :: ks, acc => by
    rw [List.foldl_cons]
    by_cases h : k0 ∈ acc
    · rw [if_pos h]
      obtain ⟨ih1, ih2, ih3⟩ := firstKeysAux ks acc
      refine ⟨ih1, ih2, ?_⟩
      intro k hk
      rcases List.mem_cons.mp hk with rfl | hk'
      · exact ih2 k h
      · exact ih3 k hk'
    · rw [if_neg h]
      obtain ⟨ih1, ih2, ih3⟩ := firstKeysAux ks (acc ++ [k0])
      refine ⟨?_, ?_, ?_⟩
      · intro hnd
        apply ih1
        simp [List.nodup_append, hnd, h]
      · intro k hk
        exact ih2 k (List.mem_append_left _ hk)
      · intro k hk
        rcases List.mem_cons.mp hk with rfl | hk'
        · exact ih2 k (List.mem_append_right _ (List.mem_singleton.mpr rfl))
        · exact ih3 k hk'

/-- helper: congruence for `flatMap` over pointwise equal group builders. -/
theorem flatMap_congr_of_mem {A B : Type} {f g : A → List B} :
    ∀ {ks : List A}, (∀ k ∈ ks, f k = g k) → ks.flatMap f = ks.flatMap g
  | [], _ => rfl
  | k :: ks, h => by
    rw [List.flatMap_cons, List.flatMap_cons, h k (List.mem_cons_self k ks),
      flatMap_congr_of_mem (fun k' hk' => h k' (List.mem_cons_of_mem k hk'))]

/-- helper: grouping a pool of records by a complete, duplicate-free key list
and concatenating the groups permutes the pool. -/
theorem flatMap_filter_perm {L : Type} (ns : L → String × String) :
    ∀ (ks : List (String × String)) (locks : List L), ks.Nodup →
      (∀ l ∈ locks, ns l ∈ ks) →
      (ks.flatMap (fun k => locks.filter (fun l => ns l = k))).Perm locks
  | [], [], _, _ => List.Perm.refl []
  | [], l :: ls, _, hcov => absurd (hcov l (List.mem_cons_self l ls)) (List.not_mem_nil _)
  | k :: ks, locks, hnd, hcov => by
    rw [List.flatMap_cons]
    have hk_not : k ∉ ks := (List.nodup_cons.mp hnd).1
    have hcongr : ∀ k' ∈ ks,
        locks.filter (fun l => ns l = k')
          = (locks.filter (fun l => !(decide (ns l = k)))).filter (fun l => ns l = k') := by
      intro k' hk'
      rw [List.filter_filter]
      apply List.filter_congr
      intro l _
      by_cases he : ns l = k'
      · have hkk : ¬(k' = k) := fun hkk => hk_not (hkk ▸ hk')
        have hne : ¬(ns l = k) := by
          rw [he]
          exact hkk
        simp [he, hne, hkk]
      · simp [he]
    have hrec := flatMap_filter_perm ns ks (locks.filter (fun l => !(decide (ns l = k))))
      (List.nodup_cons.mp hnd).2
      (by
        intro l hl
        rw [List.mem_filter] at hl
        rcases List.mem_cons.mp (hcov l hl.1) with he | hin
        · exfalso
          have := hl.2
          rw [he] at this
          simp at this
        · exact hin)
    rw [flatMap_congr_of_mem hcongr]
    exact List.Perm.trans ((List.Perm.refl _).append hrec) (List.filter_append_perm _ locks)

/-- helper: the grouping pass of `listPeerLocksInfo` permutes the pooled
lock records. -/
theorem groupLockInfos_perm {ι : Type} (allLocks : List (List (VolumeLockInfo ι))) :
    (groupLockInfos allLocks).Perm allLocks.flatten := by
  unfold groupLockInfos firstKeys
  apply flatMap_filter_perm
  · exact (firstKeysAux (allLocks.flatten.map nsParamOf) []).1 List.nodup_nil
  · intro l hl
    exact (firstKeysAux (allLocks.flatten.map nsParamOf) []).2.2
      (nsParamOf l) (List.mem_map.mpr ⟨l, hl, rfl⟩)

/-- C5: lock aggregation propagates a dominant per-peer error when its
frequency reaches the lock read quorum ⌊N/2⌋+1, fails with
`InsufficientReadQuorum{}` when errors exist but none dominates at quorum
strength, and otherwise merges every successful peer's lock records into one
flat sequence (a permutation of the concatenation of all per-peer lists). -/
theorem listPeerLocksInfo_spec :
    ∀ (ε : Type) [DecidableEq ε] (ι : Type)
      (allLocks : List (List (VolumeLockInfo ι))) (errs : List (Option ε)),
      (errs.filterMap id ≠ [] → lockReadQuorum errs.length ≤ maxErrCountOf errs →
        ∃ e, (errs.filterMap id).count e = maxErrCountOf errs ∧
          listPeerLocksInfo allLocks errs = .error (.peer e)) ∧
      (errs.filterMap id ≠ [] → maxErrCountOf errs < lockReadQuorum errs.length →
        listPeerLocksInfo allLocks errs = .error .insufficientReadQuorum) ∧
      (errs.filterMap id = [] →
        listPeerLocksInfo allLocks errs = .ok (groupLockInfos allLocks) ∧
        (groupLockInfos allLocks).Perm allLocks.flatten) := by
  intro ε instDE ι allLocks errs
  obtain ⟨hfst, hnone, hsome⟩ := reduceErrs_spec errs
  rcases hr : reduceErrs errs with ⟨c, o⟩
  rw [hr] at hfst hnone hsome
  dsimp only at hfst hnone hsome
  rcases o with _ | e
  · -- no dominant error: no peer erred, so the merge runs
    have hes : errs.filterMap id = [] := hnone.mp rfl
    refine ⟨fun hne _ => absurd hes hne, fun hne _ => absurd hes hne, fun _ => ⟨?_, ?_⟩⟩
    · unfold listPeerLocksInfo
      rw [hr]
    · exact groupLockInfos_perm allLocks
  · -- a dominant error exists
    have hes : errs.filterMap id ≠ [] := by
      intro h
      exact Option.noConfusion (hnone.mpr h)
    have hcount := hsome e rfl
    refine ⟨fun _ hq => ⟨e, hcount, ?_⟩, fun _ hq => ?_, fun h => absurd h hes⟩
    · unfold listPeerLocksInfo
      rw [hr]
      dsimp only
      rw [if_pos (by rw [hfst]; exact hq)]
    · unfold listPeerLocksInfo
      rw [hr]
      dsimp only
      rw [if_neg (by rw [hfst]; omega)]

/-- Witness for C5: three peers, two failing with the same error; the
dominant error has frequency 2 ≥ quorum 2 and is propagated. -/
theorem listPeerLocksInfo_spec_witness :
    (([some 0, some 0, none] : List (Option Nat)).filterMap id ≠ [] ∧
      lockReadQuorum ([some 0, some 0, none] : List (Option Nat)).length
        ≤ maxErrCountOf ([some 0, some 0, none] : List (Option Nat))) ∧
    ∃ e, (([some 0, some 0, none] : List (Option Nat)).filterMap id).count e
        = maxErrCountOf ([some 0, some 0, none] : List (Option Nat)) ∧
      listPeerLocksInfo ([[], [], []] : List (List (VolumeLockInfo Unit)))
          ([some 0, some 0, none] : List (Option Nat)) = .error (.peer e) :=
  ⟨⟨by decide, by decide⟩,
    (listPeerLocksInfo_spec Nat Unit [[], [], []] [some 0, some 0, none]).1
      (by decide) (by decide)⟩

/-! ### Claim C7: a decode failure aborts config aggregation -/

/-- helper: the unmarshalling loop fails with the first decode error hit on
an error-free index, whatever the other peers returned. -/
theorem decodeConfigs_abort {α β ε δ : Type} [DecidableEq α] [Inhabited α]
    (decode : β → Except δ α) :
    ∀ (configs : List β) (errs : List (Option ε)) (i : Nat) (ci : β) (d : δ),
      configs[i]? = some ci → errs[i]? = some none → decode ci = .error d →
      (∀ j, j < i → ∀ cj, configs[j]? = some cj → errs[j]? = some none →
        ∃ a, decode cj = .ok a) →
      decodeConfigs decode configs errs = .error d := by
  intro configs
  induction configs with
  | nil =>
    intro errs i ci d hc _ _ _
    rw [List.getElem?_nil] at hc
    exact Option.noConfusion hc
  | cons c cs ih =>
    intro errs i ci d hc he hd hprev
    rcases errs with _ | ⟨e, es⟩
    · rw [List.getElem?_nil] at he
      exact Option.noConfusion he
    · rcases i with _ | i
      · rw [List.getElem?_cons_zero] at hc he
        have hcc : c = ci := Option.some.inj hc
        have hee : e = none := Option.some.inj he
        subst hcc
        subst hee
        unfold decodeConfigs
        rw [hd]
      · rw [List.getElem?_cons_succ] at hc he
        have hrec : decodeConfigs decode cs es = .error d := by
          refine ih es i ci d hc he hd ?_
          intro j hj cj hcj hej
          refine hprev (j + 1) (by omega) cj ?_ ?_
          · rw [List.getElem?_cons_succ]
            exact hcj
          · rw [List.getElem?_cons_succ]
            exact hej
        rcases he0 : e with _ | e'
        · obtain ⟨a, ha⟩ := hprev 0 (Nat.succ_pos i) c
            (by rw [List.getElem?_cons_zero]) (by rw [List.getElem?_cons_zero, he0])
          unfold decodeConfigs
          rw [ha, hrec]
        · unfold decodeConfigs
          rw [hrec]

/-- helper: the distributed branch of `getPeerConfig` unfolded. -/
theorem getPeerConfig_dist_eq {α β ε δ : Type} [DecidableEq α] [Inhabited α]
    (decode : β → Except δ α) (encode : α → β) (localResult : Except ε β)
    (configs : List β) (errs : List (Option ε)) :
    getPeerConfig decode encode true localResult configs errs =
      match decodeConfigs decode configs errs with
      | .error d => .error (.decode d)
      | .ok serverConfigs =>
        match getValidServerConfig serverConfigs errs with
        | .error _ => .error .writeQuorum
        | .ok configJSON => .ok (encode configJSON) := rfl

/-- C7: during distributed config aggregation, a decode failure on any
single error-free peer's payload aborts the whole aggregate call with that
decode error, instead of counting as that one peer's failure and entering
the quorum arithmetic. -/
theorem getPeerConfig_decode_abort :
    ∀ (α β ε δ : Type) [DecidableEq α] [Inhabited α]
      (decode : β → Except δ α) (encode : α → β) (localResult : Except ε β)
      (configs : List β) (errs : List (Option ε)) (i : Nat) (ci : β) (d : δ),
      configs[i]? = some ci → errs[i]? = some none → decode ci = .error d →
      (∀ j, j < i → ∀ cj, configs[j]? = some cj → errs[j]? = some none →
        ∃ a, decode cj = .ok a) →
      getPeerConfig decode encode true localResult configs errs
        = .error (.decode d) := by
  intro α β ε δ instDE instInh decode encode localResult configs errs i ci d hc he hd hprev
  rw [getPeerConfig_dist_eq,
    decodeConfigs_abort decode configs errs i ci d hc he hd hprev]

/-- Witness for C7: peer 1's payload fails to decode while peers 0, 2 and 3
agree on a decodable config (which alone would reach write quorum 3); the
aggregate still aborts with the decode error. -/
theorem getPeerConfig_decode_abort_witness :
    getPeerConfig (fun b => if b = 1 then Except.error 42 else Except.ok b) id true
        (Except.ok 0) ([7, 1, 7, 7] : List Nat)
        ([none, none, none, none] : List (Option Unit))
      = .error (.decode 42) :=
  getPeerConfig_decode_abort Nat Nat Unit Nat
    (fun b => if b = 1 then Except.error 42 else Except.ok b) id (Except.ok 0)
    [7, 1, 7, 7] [none, none, none, none] 1 1 42 rfl rfl rfl
    (by
      intro j hj cj hcj hej
      have hj0 : j = 0 := by omega
      subst hj0
      rw [List.getElem?_cons_zero] at hcj
      have : (7 : Nat) = cj := Option.some.inj hcj
      subst this
      exact ⟨7, rfl⟩)
